import Mathlib

/-!
Verification of the CogWorks exercises repository: the embedding analogy
solver, the `plot_pairs` helper, and the linear autoencoder component
(forward pass, mean-squared loss, gradients, initialization and training).
Vectors and matrices are embedded over the real numbers; the embedding
table is an association list, whose order models the vocabulary's
iteration order.
-/

namespace Embeddings

/-- A word vector: a list of real coordinates. -/
abbrev Vec := List ℝ

/-- An embedding table: tokens paired with their vectors, in vocabulary
iteration order. -/
abbrev Table := List (String × Vec)

/-- Error raised when a requested token is absent from the vocabulary;
it carries the offending token. -/
inductive LookupErr where
  | keyNotFound (token : String)
deriving DecidableEq

/-- Lookup of a token's vector, following gensim's `glove[token]`: a present
token yields its (first) vector, an absent token fails with a key-not-found
error naming the token. -/
def getVec (table : Table) (t : String) : Except LookupErr Vec :=
  match table.lookup t with
  | some v => Except.ok v
  | none => Except.error (LookupErr.keyNotFound t)

/-- Coordinatewise sum of two vectors. -/
def addV (u v : Vec) : Vec := List.zipWith (fun a b => a + b) u v

/-- Coordinatewise difference of two vectors. -/
def subV (u v : Vec) : Vec := List.zipWith (fun a b => a - b) u v

/-- The zero vector of dimension `d`. -/
def zeros (d : ℕ) : Vec := List.replicate d 0

/-- Dot product of two vectors. -/
def dot (u v : Vec) : ℝ := (List.zipWith (fun a b => a * b) u v).sum

/-- Modelled from the spec: sum of the table vectors of a list of tokens,
failing with the lookup error of the first absent token.  The notebook's
analogy cell only spells out the concrete instance
`glove["kitten"] - glove["puppy"] + glove["dog"]`; the general form is the
spec's `sum(table[t] for t in tokens)`. -/
def sumTokens (table : Table) (d : ℕ) : List String → Except LookupErr Vec
  | [] => Except.ok (zeros d)
  | t :: ts => do
    let v ← getVec table t
    let s ← sumTokens table d ts
    pure (addV v s)

/-- Modelled from the spec: `analogy(table, positive_tokens, negative_tokens)`
returns the sum of the positive tokens' vectors minus the sum of the negative
tokens' vectors, propagating the first lookup failure. -/
def analogy (table : Table) (d : ℕ) (pos neg : List String) :
    Except LookupErr Vec := do
  let sp ← sumTokens table d pos
  let sn ← sumTokens table d neg
  pure (subV sp sn)

/-- Total lookup used on the specification side: the vector of a token, or
the zero vector when absent. -/
def vecOf (table : Table) (d : ℕ) (t : String) : Vec :=
  (table.lookup t).getD (zeros d)

/-- Specification-side sum of token vectors, via total lookups. -/
def specSum (table : Table) (d : ℕ) (ts : List String) : Vec :=
  ts.foldr (fun t acc => addV (vecOf table d t) acc) (zeros d)

/-- Cosine similarity of two vectors, the metric of
`glove.similar_by_vector`. -/
noncomputable def cosSim (u v : Vec) : ℝ :=
  dot u v / (Real.sqrt (dot u u) * Real.sqrt (dot v v))

/-- A vocabulary entry ranked for a query: its position in vocabulary
iteration order, its token, and its similarity score. -/
abbrev Ranked : Type := ℕ × String × ℝ

/-- Ranking order for `nearest`: higher score first; on a tie the entry
earlier in vocabulary iteration order comes first (the spec's stable,
deterministic tie-break). -/
def rankRel (a b : Ranked) : Prop :=
  b.2.2 < a.2.2 ∨ (a.2.2 = b.2.2 ∧ a.1 ≤ b.1)

noncomputable instance : DecidableRel rankRel := fun _ _ => instDecidableOr

instance : IsTotal Ranked rankRel := by
  constructor
  intro a b
  rcases lt_trichotomy a.2.2 b.2.2 with h | h | h
  · exact Or.inr (Or.inl h)
  · rcases Nat.le_total a.1 b.1 with hn | hn
    · exact Or.inl (Or.inr ⟨h, hn⟩)
    · exact Or.inr (Or.inr ⟨h.symm, hn⟩)
  · exact Or.inl (Or.inl h)

instance : IsTrans Ranked rankRel := by
  constructor
  rintro a b c (hab | ⟨hab, hab2⟩) (hbc | ⟨hbc, hbc2⟩)
  · exact Or.inl (hbc.trans hab)
  · exact Or.inl (hbc ▸ hab)
  · exact Or.inl (hab ▸ hbc)
  · exact Or.inr ⟨hab.trans hbc, hab2.trans hbc2⟩

/-- Modelled from the spec: the candidate entries considered by `nearest`,
in vocabulary iteration order, each carrying its vocabulary index, with the
excluded tokens removed and each remaining entry scored by cosine
similarity with the query vector. -/
noncomputable def scoredCandidates (table : Table) (q : Vec)
    (exclude : List String) : List Ranked :=
  (table.enum.filter (fun e => !(exclude.contains e.2.1))).map
    (fun e => (e.1, e.2.1, cosSim q e.2.2))

/-- Modelled from the spec: brute-force nearest-neighbor search with
vocabulary indices retained — score every non-excluded entry, stable-sort
by descending similarity, keep the first `k`. -/
noncomputable def nearestRanked (table : Table) (q : Vec) (k : ℕ)
    (exclude : List String) : List Ranked :=
  (List.insertionSort rankRel (scoredCandidates table q exclude)).take k

/-- Modelled from the spec: `nearest(table, query_vector, k, exclude)`
returns the (token, score) pairs of the `k` highest-scoring non-excluded
entries, highest cosine similarity first. -/
noncomputable def nearest (table : Table) (q : Vec) (k : ℕ)
    (exclude : List String) : List (String × ℝ) :=
  (nearestRanked table q k exclude).map (fun e => (e.2.1, e.2.2))

/-- The drawing commands issued by `plot_pairs`: the scattered 2-D points,
the text annotations placed at those points, and the dashed line segments,
each given by the list of points it runs through. -/
structure PlotData where
  points : List (ℝ × ℝ)
  labels : List (String × (ℝ × ℝ))
  segments : List (List (ℝ × ℝ))

/-- The notebook's `plot_pairs(words, word_vectors, svd)` helper.  The
fitted SVD's `transform` is the external collaborator `transform`; each
word's vector is looked up in the table (a missing word fails as the
library lookup would), every point is scattered and annotated with its
word, and for `i` in `range(int(len(words)/2))` a dashed segment is drawn
through the slice `words_2D[i*2 : i*2+2]`. -/
def plot_pairs (transform : Vec → ℝ × ℝ) (words : List String)
    (table : Table) : Except LookupErr PlotData := do
  let vecs ← words.mapM (getVec table)
  let pts := vecs.map transform
  pure
    { points := pts
      labels := words.zip pts
      segments := (List.range (words.length / 2)).map
        (fun i => (pts.drop (2 * i)).take 2) }

/-- A small concrete embedding table with one-dimensional vectors, used to
instantiate theorems on concrete inputs. -/
def tinyTable : Table := [("dog", [1]), ("kitten", [2]), ("puppy", [3])]

/-- A concrete table whose three vectors all equal `[1]`, so every entry
has the same cosine similarity with any query. -/
def unitTable : Table := [("dog", [1]), ("kitten", [1]), ("puppy", [1])]

end Embeddings

namespace Autoencoder

open Matrix

/-- The linear autoencoder's learnable parameters: an encoder weight matrix
of shape `(D_full, D_hidden)` and a decoder weight matrix of shape
`(D_hidden, D_full)`. -/
structure Params (df dh : ℕ) where
  W_enc : Matrix (Fin df) (Fin dh) ℝ
  W_dec : Matrix (Fin dh) (Fin df) ℝ

variable {n df dh bs : ℕ}

/-- The encoder dense layer (no bias, no activation): `X @ W_enc`. -/
def encode (p : Params df dh) (X : Matrix (Fin n) (Fin df) ℝ) :
    Matrix (Fin n) (Fin dh) ℝ :=
  X * p.W_enc

/-- The decoder dense layer (no bias, no activation): `H @ W_dec`. -/
def decode (p : Params df dh) (H : Matrix (Fin n) (Fin dh) ℝ) :
    Matrix (Fin n) (Fin df) ℝ :=
  H * p.W_dec

/-- The model's forward pass: the decoder applied to the encoder's output,
with no bias term and no nonlinearity in either layer. -/
def forward (p : Params df dh) (X : Matrix (Fin n) (Fin df) ℝ) :
    Matrix (Fin n) (Fin df) ℝ :=
  decode p (encode p X)

/-- Mean squared error between a prediction and a target of equal shape:
the mean over all elements of the squared elementwise difference
(`mynn.losses.mean_squared_loss`). -/
noncomputable def loss (P T : Matrix (Fin n) (Fin df) ℝ) : ℝ :=
  (∑ ij : Fin n × Fin df, (P ij.1 ij.2 - T ij.1 ij.2) ^ 2) / (n * df)

/-- The reconstruction error `E = X W_enc W_dec - X`. -/
def errMat (p : Params df dh) (X : Matrix (Fin n) (Fin df) ℝ) :
    Matrix (Fin n) (Fin df) ℝ :=
  forward p X - X

/-- The spec's closed form for the gradient of the mean-squared
reconstruction loss with respect to `W_dec`:
`(X W_enc)ᵗ E · (2/(N·D_full))`. -/
noncomputable def gradDec (p : Params df dh) (X : Matrix (Fin n) (Fin df) ℝ) :
    Matrix (Fin dh) (Fin df) ℝ :=
  (2 / (n * df) : ℝ) • ((encode p X)ᵀ * errMat p X)

/-- The spec's closed form for the gradient of the mean-squared
reconstruction loss with respect to `W_enc`:
`Xᵗ (E W_decᵗ) · (2/(N·D_full))`. -/
noncomputable def gradEnc (p : Params df dh) (X : Matrix (Fin n) (Fin df) ℝ) :
    Matrix (Fin df) (Fin dh) ℝ :=
  (2 / (n * df) : ℝ) • (Xᵀ * (errMat p X * (p.W_dec)ᵀ))

/-- The loss minimized by a training step on a batch `B`: the truth value
is the original batch itself (self-supervised reconstruction). -/
noncomputable def stepLoss (p : Params df dh)
    (B : Matrix (Fin bs) (Fin df) ℝ) : ℝ :=
  loss (forward p B) B

/-- One gradient-descent parameter update, `W ← W − learning_rate × gradient`,
using the closed-form gradients. -/
noncomputable def update (lr : ℝ) (p : Params df dh)
    (B : Matrix (Fin bs) (Fin df) ℝ) : Params df dh :=
  ⟨p.W_enc - lr • gradEnc p B, p.W_dec - lr • gradDec p B⟩

/-- Error raised for an invalid hyperparameter configuration; it records
the offending `D_full` and `D_hidden`. -/
inductive ConfigError where
  | invalidBottleneck (D_full D_hidden : ℕ)
deriving DecidableEq

/-- Modelled from the spec: `initialize(D_full, D_hidden, rng_seed)`
validates `D_hidden < D_full` at entry, rejecting `D_hidden ≥ D_full` as a
configuration error before anything is computed, and otherwise allocates
the two weight matrices with a fan-in-scaled (he-normal style) random
initializer.  The random number stream is the external oracle `rand`,
indexed by seed and matrix position; the notebook's `__init__` body is a
student placeholder, so the guard and the initializer come from the spec's
words. -/
noncomputable def initParams (rand : ℕ → ℕ → ℕ → ℝ) (D_full D_hidden seed : ℕ) :
    Except ConfigError (Params D_full D_hidden) :=
  if D_full ≤ D_hidden then
    Except.error (ConfigError.invalidBottleneck D_full D_hidden)
  else
    Except.ok
      { W_enc := Matrix.of fun i j =>
          Real.sqrt (2 / D_full) * rand seed i.val j.val
        W_dec := Matrix.of fun i j =>
          Real.sqrt (2 / D_hidden) * rand (seed + 1) i.val j.val }

/-- A scheduled training step: the epoch it belongs to, its batch index
within the epoch, and its batch of data.  The epoch partitioning and
per-epoch shuffling are performed by the caller that builds the schedule. -/
structure TrainStep (bs df : ℕ) where
  epoch : ℕ
  batch : ℕ
  data : Matrix (Fin bs) (Fin df) ℝ

/-- Report of numerical divergence: the epoch and batch at which a
non-finite loss was detected. -/
structure DivergeInfo where
  epoch : ℕ
  batch : ℕ
deriving DecidableEq

/-- The parameters produced by running every scheduled update (no
divergence check). -/
noncomputable def runParams (lr : ℝ) (p : Params df dh) :
    List (TrainStep bs df) → Params df dh
  | [] => p
  | s :: rest => runParams lr (update lr p s.data) rest

/-- The per-batch loss history an uninterrupted run would compute, in
schedule order. -/
noncomputable def runLosses (lr : ℝ) (p : Params df dh) :
    List (TrainStep bs df) → List ℝ
  | [] => []
  | s :: rest => stepLoss p s.data :: runLosses lr (update lr p s.data) rest

/-- Modelled from the spec: the training loop.  For each scheduled batch it
computes the reconstruction loss against the original batch; if the loss is
non-finite (as judged by the float-finiteness oracle `isFin`) training
halts immediately with a `DivergeInfo` naming the current epoch and batch,
performing no further updates; otherwise it takes one gradient-descent
step and continues, returning the final parameters and the per-batch loss
history. -/
noncomputable def train (isFin : ℝ → Bool) (lr : ℝ) (p : Params df dh) :
    List (TrainStep bs df) → Except DivergeInfo (Params df dh × List ℝ)
  | [] => Except.ok (p, [])
  | s :: rest =>
    let l := stepLoss p s.data
    if isFin l then
      match train isFin lr (update lr p s.data) rest with
      | Except.ok (q, hist) => Except.ok (q, l :: hist)
      | Except.error e => Except.error e
    else
      Except.error ⟨s.epoch, s.batch⟩

end Autoencoder

open Embeddings Autoencoder Matrix

/-- C1: for every parameter pair and every input batch `X` of shape
`(N, D_full)`, the forward pass returns exactly the matrix product
`X @ W_enc @ W_dec`, of shape `(N, D_full)` by its type; the entrywise form
shows the pass is the bare double product, with no bias term and no
nonlinearity. -/
theorem forward_is_pure_linear_product {n df dh : ℕ} (p : Params df dh)
    (X : Matrix (Fin n) (Fin df) ℝ) :
    forward p X = X * p.W_enc * p.W_dec ∧
    ∀ i j, forward p X i j =
      ∑ h : Fin dh, (∑ f : Fin df, X i f * p.W_enc f h) * p.W_dec h j := by
  constructor
  · rfl
  · intro i j
    simp [forward, decode, encode, Matrix.mul_apply]

/-- C6: the loss is the mean over all elements of the squared difference of
prediction and target, and the loss minimized by a training step on a batch
compares the reconstruction against the original batch itself. -/
theorem loss_is_mean_squared_error (n df dh bs : ℕ) :
    (∀ P T : Matrix (Fin n) (Fin df) ℝ,
      loss P T = (∑ i : Fin n, ∑ j : Fin df, (P i j - T i j) ^ 2) / (n * df)) ∧
    (∀ (p : Params df dh) (B : Matrix (Fin bs) (Fin df) ℝ),
      stepLoss p B = loss (forward p B) B) := by
  constructor
  · intro P T
    rw [loss]
    congr 1
    exact Fintype.sum_prod_type' (f := fun i j => (P i j - T i j) ^ 2)
  · intro p B
    rfl

/-- C7: initialization rejects `D_hidden ≥ D_full` with a configuration
error, for every random stream and seed, and succeeds exactly when
`D_hidden < D_full`; in particular `D_full = 4, D_hidden = 4` fails. -/
theorem initParams_rejects_wide_bottleneck (rand : ℕ → ℕ → ℕ → ℝ)
    (df dh seed : ℕ) :
    (initParams rand df dh seed =
        Except.error (ConfigError.invalidBottleneck df dh) ↔ df ≤ dh) ∧
    ((∃ q, initParams rand df dh seed = Except.ok q) ↔ dh < df) ∧
    (∃ e, initParams rand 4 4 seed = Except.error e) := by
  refine ⟨?_, ?_, ?_⟩
  · unfold initParams
    split
    · simpa
    · simp
      omega
  · unfold initParams
    split
    · simp
      omega
    · simp
      omega
  · exact ⟨_, rfl⟩

/-- If every token of `ts` is present in the table, `sumTokens` succeeds
with the specification-side sum of their vectors. -/
theorem sumTokens_ok (table : Table) (d : ℕ) :
    ∀ ts : List String, (∀ t ∈ ts, (table.lookup t).isSome = true) →
      sumTokens table d ts = Except.ok (specSum table d ts)
  | [], _ => rfl
  | t :: ts, h => by
    have ht : (table.lookup t).isSome = true := h t (by simp)
    rcases Option.isSome_iff_exists.mp ht with ⟨v, hv⟩
    have ih := sumTokens_ok table d ts (fun u hu => h u (by simp [hu]))
    simp [sumTokens, getVec, hv, ih, specSum, vecOf]
    rfl

/-- C2: when every positive and negative token is present in the table,
`analogy` returns the sum of the positive tokens' vectors minus the sum of
the negative tokens' vectors; as a pure function of the table it has no
side effects on it. -/
theorem analogy_is_sum_minus_sum (table : Table) (d : ℕ)
    (pos neg : List String)
    (hp : ∀ t ∈ pos, (table.lookup t).isSome = true)
    (hn : ∀ t ∈ neg, (table.lookup t).isSome = true) :
    analogy table d pos neg =
      Except.ok (subV (specSum table d pos) (specSum table d neg)) := by
  simp [analogy, sumTokens_ok table d pos hp, sumTokens_ok table d neg hn]
  rfl

/-- Witness for C2 at a concrete table and token lists. -/
theorem analogy_is_sum_minus_sum_witness :
    (∀ t ∈ ["dog", "kitten"], (tinyTable.lookup t).isSome = true) ∧
    (∀ t ∈ ["puppy"], (tinyTable.lookup t).isSome = true) ∧
    analogy tinyTable 1 ["dog", "kitten"] ["puppy"] =
      Except.ok (subV (specSum tinyTable 1 ["dog", "kitten"])
        (specSum tinyTable 1 ["puppy"])) :=
  ⟨by decide, by decide,
    analogy_is_sum_minus_sum tinyTable 1 _ _ (by decide) (by decide)⟩

/-- C9: looking up a token absent from the vocabulary fails with a
key-not-found error that names the missing token — and only with that
error — and the failure propagates through `analogy` to the caller. -/
theorem lookup_missing_token_fails (table : Table) (t : String) :
    (getVec table t = Except.error (LookupErr.keyNotFound t) ↔
      table.lookup t = none) ∧
    (∀ e, getVec table t = Except.error e → e = LookupErr.keyNotFound t) ∧
    ((table.lookup t).isSome = false →
      ∀ (d : ℕ) (pos : List String),
        analogy table d (t :: pos) [] =
          Except.error (LookupErr.keyNotFound t)) := by
  refine ⟨?_, ?_, ?_⟩
  · cases h : table.lookup t <;> simp [getVec, h]
  · intro e
    cases h : table.lookup t <;> simp [getVec, h]
    intro he
    exact he.symm
  · intro h d pos
    have hn : table.lookup t = none := by
      cases hl : table.lookup t
      · rfl
      · rw [hl] at h
        simp at h
    simp [analogy, sumTokens, getVec, hn]
    rfl

/-- Witness for C9 at a concrete table and missing token. -/
theorem lookup_missing_token_fails_witness :
    (tinyTable.lookup "cat").isSome = false ∧
    analogy tinyTable 1 ["cat"] [] =
      Except.error (LookupErr.keyNotFound "cat") :=
  ⟨by decide, (lookup_missing_token_fails tinyTable "cat").2.2 (by decide) 1 []⟩

/-- Entries returned by `nearestRanked` all come from the scored candidate
list. -/
theorem mem_scoredCandidates_of_mem_nearestRanked {table : Table} {q : Vec}
    {k : ℕ} {exclude : List String} {e : Ranked}
    (h : e ∈ nearestRanked table q k exclude) :
    e ∈ scoredCandidates table q exclude := by
  have h1 : e ∈ List.insertionSort rankRel (scoredCandidates table q exclude) :=
    (List.take_sublist _ _).subset h
  exact (List.perm_insertionSort rankRel _).mem_iff.mp h1

/-- No token of the exclusion set survives into the result of `nearest`. -/
theorem nearest_not_excluded (table : Table) (q : Vec) (k : ℕ)
    (exclude : List String) :
    ∀ p ∈ nearest table q k exclude, exclude.contains p.1 = false := by
  intro p hp
  rcases List.mem_map.mp hp with ⟨e, he, rfl⟩
  have h2 := mem_scoredCandidates_of_mem_nearestRanked he
  rcases List.mem_map.mp h2 with ⟨w, hw, rfl⟩
  have h3 := (List.mem_filter.mp hw).2
  simpa using h3

/-- The vocabulary indices carried by `nearestRanked` are pairwise
distinct. -/
theorem nearestRanked_fst_nodup (table : Table) (q : Vec) (k : ℕ)
    (exclude : List String) :
    ((nearestRanked table q k exclude).map Prod.fst).Nodup := by
  have h0 : (table.enum.map Prod.fst).Nodup := List.nodup_enum_map_fst _
  have hfil :
      ((table.enum.filter (fun e => !(exclude.contains e.2.1))).map
        Prod.fst).Nodup :=
    h0.sublist ((List.filter_sublist _).map Prod.fst)
  have hsc : ((scoredCandidates table q exclude).map Prod.fst).Nodup := by
    have : (scoredCandidates table q exclude).map Prod.fst =
        (table.enum.filter (fun e => !(exclude.contains e.2.1))).map
          Prod.fst := by
      unfold scoredCandidates
      rw [List.map_map]
      rfl
    rw [this]
    exact hfil
  have hsort :
      ((List.insertionSort rankRel
        (scoredCandidates table q exclude)).map Prod.fst).Nodup :=
    (((List.perm_insertionSort rankRel _).map Prod.fst).nodup_iff).mpr hsc
  exact hsort.sublist ((List.take_sublist _ _).map Prod.fst)

/-- C3: `nearest` returns at most `k` (token, score) pairs; none of the
returned tokens is excluded; each score is the cosine similarity between
the query vector and that token's table vector; the pairs are ordered
highest similarity first; and with vocabulary indices retained the order
is strict — exact ties are broken by vocabulary iteration order — so the
result is deterministic. -/
theorem nearest_is_sorted_bounded_exclusive (table : Table) (q : Vec)
    (k : ℕ) (exclude : List String) :
    (nearest table q k exclude).length ≤ k ∧
    (∀ p ∈ nearest table q k exclude, exclude.contains p.1 = false) ∧
    (nearest table q k exclude).Pairwise (fun a b => b.2 ≤ a.2) ∧
    (∀ p ∈ nearest table q k exclude,
      ∃ v : Vec, (p.1, v) ∈ table ∧ p.2 = cosSim q v) ∧
    (nearestRanked table q k exclude).Pairwise
      (fun a b => b.2.2 < a.2.2 ∨ (a.2.2 = b.2.2 ∧ a.1 < b.1)) := by
  have hsorted : (nearestRanked table q k exclude).Pairwise rankRel :=
    (List.sorted_insertionSort rankRel
      (scoredCandidates table q exclude)).sublist (List.take_sublist _ _)
  have hne : (nearestRanked table q k exclude).Pairwise
      (fun a b => a.1 ≠ b.1) :=
    List.pairwise_map.mp (nearestRanked_fst_nodup table q k exclude)
  have hstrict : (nearestRanked table q k exclude).Pairwise
      (fun a b => b.2.2 < a.2.2 ∨ (a.2.2 = b.2.2 ∧ a.1 < b.1)) := by
    refine (hsorted.and hne).imp ?_
    rintro a b ⟨hr | ⟨hs, hi⟩, hne2⟩
    · exact Or.inl hr
    · exact Or.inr ⟨hs, lt_of_le_of_ne hi hne2⟩
  refine ⟨?_, nearest_not_excluded table q k exclude, ?_, ?_, hstrict⟩
  · rw [nearest, List.length_map, nearestRanked]
    exact List.length_take_le _ _
  · refine List.pairwise_map.mpr (hsorted.imp ?_)
    rintro a b (hr | ⟨hs, _⟩)
    · exact le_of_lt hr
    · exact le_of_eq hs.symm
  · intro p hp
    rcases List.mem_map.mp hp with ⟨e, he, rfl⟩
    rcases List.mem_map.mp
      (mem_scoredCandidates_of_mem_nearestRanked he) with ⟨w, hw, rfl⟩
    have hwe : w ∈ table.enum := (List.mem_filter.mp hw).1
    have hget : table[w.1]? = some w.2 := List.mem_enum_iff_getElem?.mp hwe
    exact ⟨w.2.2, by simpa using List.getElem?_mem hget, rfl⟩

/-- On `unitTable` the token "dog" always appears in an unexcluded
`nearest` query: all three entries survive the empty exclusion filter and
a ten-element cut keeps them all. -/
theorem dog_mem_nearest_unitTable (q : Vec) :
    "dog" ∈ (nearest unitTable q 10 []).map Prod.fst := by
  have hsc : scoredCandidates unitTable q [] =
      [(0, "dog", cosSim q [1]), (1, "kitten", cosSim q [1]),
        (2, "puppy", cosSim q [1])] := rfl
  have hperm :=
    List.perm_insertionSort rankRel (scoredCandidates unitTable q [])
  have hlen :
      (List.insertionSort rankRel (scoredCandidates unitTable q [])).length =
        3 := by
    rw [hperm.length_eq, hsc]
    rfl
  have hmem : ((0 : ℕ), ("dog", cosSim q ([1] : Vec))) ∈
      List.insertionSort rankRel (scoredCandidates unitTable q []) := by
    rw [hperm.mem_iff, hsc]
    exact List.mem_cons_self _ _
  rw [nearest, nearestRanked, List.take_of_length_le (by rw [hlen]; omega)]
  exact List.mem_map.mpr ⟨_, List.mem_map.mpr ⟨_, hmem, rfl⟩, rfl⟩

/-- C4 counterexample: for the analogy query built from positive tokens
{"dog", "kitten"} and negative token {"puppy"} exactly as the notebook
issues it — `similar_by_vector` with no exclusion — the result CAN contain
the input token "dog"; on `unitTable` it always does. -/
theorem analogy_result_contains_input_token :
    ∃ q : Vec, analogy unitTable 1 ["dog", "kitten"] ["puppy"] =
        Except.ok q ∧
      "dog" ∈ (nearest unitTable q 10 []).map Prod.fst :=
  ⟨_, rfl, dog_mem_nearest_unitTable _⟩

/-- C4 amended: when the caller passes the three input tokens as the
exclusion set — as the spec makes the caller responsible for doing — the
result of the analogy query contains none of "dog", "kitten", "puppy". -/
theorem analogy_query_with_exclusion_omits_inputs (table : Table)
    (d k : ℕ) (q : Vec)
    (_hq : analogy table d ["dog", "kitten"] ["puppy"] = Except.ok q) :
    ∀ p ∈ nearest table q k ["dog", "kitten", "puppy"],
      p.1 ≠ "dog" ∧ p.1 ≠ "kitten" ∧ p.1 ≠ "puppy" := by
  intro p hp
  have h := nearest_not_excluded table q k ["dog", "kitten", "puppy"] p hp
  simp at h
  exact h

/-- Witness for the amended C4 at a concrete table. -/
theorem analogy_query_with_exclusion_omits_inputs_witness :
    ∃ q : Vec, analogy unitTable 1 ["dog", "kitten"] ["puppy"] =
        Except.ok q ∧
      ∀ p ∈ nearest unitTable q 5 ["dog", "kitten", "puppy"],
        p.1 ≠ "dog" ∧ p.1 ≠ "kitten" ∧ p.1 ≠ "puppy" :=
  ⟨_, rfl, analogy_query_with_exclusion_omits_inputs unitTable 1 5 _ rfl⟩

/-- When every word is present, looking up all the words succeeds and
yields one vector per word. -/
theorem mapM_getVec_ok (table : Table) :
    ∀ ws : List String, (∀ t ∈ ws, (table.lookup t).isSome = true) →
      ∃ vs : List Vec, ws.mapM (getVec table) = Except.ok vs ∧
        vs.length = ws.length
  | [], _ => ⟨[], rfl, rfl⟩
  | t :: ts, h => by
    rcases Option.isSome_iff_exists.mp (h t (by simp)) with ⟨v, hv⟩
    rcases mapM_getVec_ok table ts (fun u hu => h u (by simp [hu])) with
      ⟨vs, hvs, hlen⟩
    refine ⟨v :: vs, ?_, by simp [hlen]⟩
    rw [List.mapM_cons, hvs]
    simp [getVec, hv]
    rfl

/-- C10: with all `n` words present, `plot_pairs` succeeds (no error even
for odd `n`), scatters `n` points, annotates `n` labels, and draws exactly
`⌊n/2⌋` dashed segments, the `i`-th joining the points of words `2i` and
`2i+1`; when `n` is odd no segment touches the final word's point. -/
theorem plot_pairs_draws_floor_half_segments (transform : Vec → ℝ × ℝ)
    (words : List String) (table : Table)
    (h : ∀ t ∈ words, (table.lookup t).isSome = true) :
    ∃ pd, plot_pairs transform words table = Except.ok pd ∧
      pd.points.length = words.length ∧
      pd.labels.length = words.length ∧
      pd.segments.length = words.length / 2 ∧
      (∀ i, i < words.length / 2 →
        pd.segments.getD i [] =
          [pd.points.getD (2 * i) (0, 0),
            pd.points.getD (2 * i + 1) (0, 0)]) ∧
      (words.length % 2 = 1 → ∀ i, i < words.length / 2 →
        2 * i + 1 < words.length - 1) := by
  rcases mapM_getVec_ok table words h with ⟨vs, hvs, hlen⟩
  have hplen : (vs.map transform).length = words.length := by simp [hlen]
  refine ⟨{ points := vs.map transform,
            labels := words.zip (vs.map transform),
            segments := (List.range (words.length / 2)).map
              (fun i => ((vs.map transform).drop (2 * i)).take 2) },
    ?_, ?_, ?_, ?_, ?_, ?_⟩
  · simp only [plot_pairs]
    rw [hvs]
    rfl
  · exact hplen
  · simp [hlen]
  · simp
  · intro i hi
    have h1 : 2 * i < (vs.map transform).length := by rw [hplen]; omega
    have h2 : 2 * i + 1 < (vs.map transform).length := by rw [hplen]; omega
    have hsl : ((List.range (words.length / 2)).map
        (fun i => ((vs.map transform).drop (2 * i)).take 2)).length =
          words.length / 2 := by simp
    rw [List.getD_eq_getElem _ _ (by rw [hsl]; exact hi)]
    rw [List.getElem_map, List.getElem_range]
    rw [List.getD_eq_getElem _ _ h1, List.getD_eq_getElem _ _ h2]
    rw [List.drop_eq_getElem_cons h1, List.drop_eq_getElem_cons h2]
    rfl
  · intro hodd i hi
    omega

/-- Witness for C10 at a concrete odd-length word list. -/
theorem plot_pairs_draws_floor_half_segments_witness :
    (∀ t ∈ ["dog", "kitten", "puppy"], (tinyTable.lookup t).isSome = true) ∧
    ∃ pd, plot_pairs (fun _ => ((0 : ℝ), (0 : ℝ)))
        ["dog", "kitten", "puppy"] tinyTable = Except.ok pd ∧
      pd.points.length = 3 ∧
      pd.labels.length = 3 ∧
      pd.segments.length = 1 ∧
      (∀ i, i < 1 →
        pd.segments.getD i [] =
          [pd.points.getD (2 * i) (0, 0),
            pd.points.getD (2 * i + 1) (0, 0)]) ∧
      (3 % 2 = 1 → ∀ i, i < 1 → 2 * i + 1 < 2) :=
  ⟨by decide,
    plot_pairs_draws_floor_half_segments _ _ _ (by decide)⟩

/-- Derivative at `0` of a quadratic polynomial in `t`. -/
theorem hasDerivAt_quadratic (A B C : ℝ) :
    HasDerivAt (fun t : ℝ => A + B * t + C * t ^ 2) B 0 := by
  have h1 : HasDerivAt (fun t : ℝ => B * t) B 0 := by
    simpa using (hasDerivAt_id (0 : ℝ)).const_mul B
  have h2 : HasDerivAt (fun t : ℝ => C * t ^ 2) 0 0 := by
    simpa using (hasDerivAt_pow 2 (0 : ℝ)).const_mul C
  simpa using ((hasDerivAt_const (0 : ℝ) A).add h1).add h2

/-- The loss along a ray `P + t • Q` is an explicit quadratic in `t`. -/
theorem loss_add_smul {n df : ℕ} (P Q T : Matrix (Fin n) (Fin df) ℝ)
    (t : ℝ) :
    loss (P + t • Q) T =
      loss P T +
      ((∑ ij : Fin n × Fin df,
        2 * (P ij.1 ij.2 - T ij.1 ij.2) * Q ij.1 ij.2) / (n * df)) * t +
      ((∑ ij : Fin n × Fin df, Q ij.1 ij.2 ^ 2) / (n * df)) * t ^ 2 := by
  unfold loss
  have hexp : ∀ ij : Fin n × Fin df,
      ((P + t • Q) ij.1 ij.2 - T ij.1 ij.2) ^ 2 =
        (P ij.1 ij.2 - T ij.1 ij.2) ^ 2 +
        (2 * (P ij.1 ij.2 - T ij.1 ij.2) * Q ij.1 ij.2) * t +
        Q ij.1 ij.2 ^ 2 * t ^ 2 := by
    intro ij
    simp only [Matrix.add_apply, Matrix.smul_apply, smul_eq_mul]
    ring
  rw [Finset.sum_congr rfl (fun ij _ => hexp ij), Finset.sum_add_distrib,
    Finset.sum_add_distrib, ← Finset.sum_mul, ← Finset.sum_mul, add_div,
    add_div]
  ring

/-- Perturbing the decoder weights moves the forward pass along the ray
directed by `encode p X * M`. -/
theorem forward_dec_dir {n df dh : ℕ} (p : Params df dh)
    (X : Matrix (Fin n) (Fin df) ℝ) (M : Matrix (Fin dh) (Fin df) ℝ)
    (t : ℝ) :
    forward ⟨p.W_enc, p.W_dec + t • M⟩ X =
      forward p X + t • (encode p X * M) := by
  simp [forward, decode, encode, Matrix.mul_add, Matrix.mul_smul]

/-- Perturbing the encoder weights moves the forward pass along the ray
directed by `X * M * W_dec`. -/
theorem forward_enc_dir {n df dh : ℕ} (p : Params df dh)
    (X : Matrix (Fin n) (Fin df) ℝ) (M : Matrix (Fin df) (Fin dh) ℝ)
    (t : ℝ) :
    forward ⟨p.W_enc + t • M, p.W_dec⟩ X =
      forward p X + t • (X * M * p.W_dec) := by
  simp [forward, decode, encode, Matrix.mul_add, Matrix.add_mul,
    Matrix.mul_smul, Matrix.smul_mul]

/-- Entrywise form of the decoder-direction matrix
`encode p X * stdBasisMatrix a b 1`. -/
theorem dec_dir_apply {n df dh : ℕ} (p : Params df dh)
    (X : Matrix (Fin n) (Fin df) ℝ) (a : Fin dh) (b : Fin df)
    (i : Fin n) (j : Fin df) :
    (encode p X * Matrix.stdBasisMatrix a b (1 : ℝ)) i j =
      if b = j then encode p X i a else 0 := by
  rw [Matrix.mul_apply]
  by_cases hb : b = j
  · subst hb
    simp [Matrix.stdBasisMatrix, Matrix.of_apply, mul_ite,
      Finset.sum_ite_eq]
  · simp [Matrix.stdBasisMatrix, Matrix.of_apply, hb]

/-- Entrywise form of the encoder-direction matrix
`X * stdBasisMatrix a b 1 * W_dec`. -/
theorem enc_dir_apply {n df dh : ℕ} (p : Params df dh)
    (X : Matrix (Fin n) (Fin df) ℝ) (a : Fin df) (b : Fin dh)
    (i : Fin n) (j : Fin df) :
    (X * Matrix.stdBasisMatrix a b (1 : ℝ) * p.W_dec) i j =
      X i a * p.W_dec b j := by
  have hXS : ∀ h : Fin dh, (X * Matrix.stdBasisMatrix a b (1 : ℝ)) i h =
      if b = h then X i a else 0 := by
    intro h
    rw [Matrix.mul_apply]
    by_cases hb : b = h
    · subst hb
      simp [Matrix.stdBasisMatrix, Matrix.of_apply, mul_ite,
        Finset.sum_ite_eq]
    · simp [Matrix.stdBasisMatrix, Matrix.of_apply, hb]
  rw [Matrix.mul_apply, Finset.sum_congr rfl (fun h _ => by rw [hXS h])]
  simp [ite_mul, Finset.sum_ite_eq]

/-- The linear coefficient of the loss along the decoder direction equals
the corresponding entry of the closed-form decoder gradient. -/
theorem dec_dir_sum {n df dh : ℕ} (p : Params df dh)
    (X : Matrix (Fin n) (Fin df) ℝ) (a : Fin dh) (b : Fin df) :
    (∑ ij : Fin n × Fin df,
      2 * (forward p X ij.1 ij.2 - X ij.1 ij.2) *
        (encode p X * Matrix.stdBasisMatrix a b (1 : ℝ)) ij.1 ij.2) /
      (n * df) = gradDec p X a b := by
  rw [Finset.sum_congr rfl
    (fun ij _ => by rw [dec_dir_apply p X a b ij.1 ij.2])]
  rw [Fintype.sum_prod_type' (f := fun i j =>
    2 * (forward p X i j - X i j) * (if b = j then encode p X i a else 0))]
  have hinner : ∀ i : Fin n,
      (∑ j : Fin df, 2 * (forward p X i j - X i j) *
        (if b = j then encode p X i a else 0)) =
      2 * (forward p X i b - X i b) * encode p X i a := by
    intro i
    rw [Finset.sum_congr rfl (fun j _ => by rw [mul_ite, mul_zero])]
    simp [Finset.sum_ite_eq]
  rw [Finset.sum_congr rfl (fun i _ => hinner i)]
  rw [gradDec, Matrix.smul_apply, Matrix.mul_apply, smul_eq_mul,
    Finset.mul_sum, Finset.sum_div]
  refine Finset.sum_congr rfl (fun i _ => ?_)
  simp only [Matrix.transpose_apply, errMat, Matrix.sub_apply]
  ring

/-- The linear coefficient of the loss along the encoder direction equals
the corresponding entry of the closed-form encoder gradient. -/
theorem enc_dir_sum {n df dh : ℕ} (p : Params df dh)
    (X : Matrix (Fin n) (Fin df) ℝ) (a : Fin df) (b : Fin dh) :
    (∑ ij : Fin n × Fin df,
      2 * (forward p X ij.1 ij.2 - X ij.1 ij.2) *
        (X * Matrix.stdBasisMatrix a b (1 : ℝ) * p.W_dec) ij.1 ij.2) /
      (n * df) = gradEnc p X a b := by
  rw [Finset.sum_congr rfl
    (fun ij _ => by rw [enc_dir_apply p X a b ij.1 ij.2])]
  rw [Fintype.sum_prod_type' (f := fun i j =>
    2 * (forward p X i j - X i j) * (X i a * p.W_dec b j))]
  rw [gradEnc, Matrix.smul_apply, Matrix.mul_apply, smul_eq_mul,
    Finset.mul_sum, Finset.sum_div]
  refine Finset.sum_congr rfl (fun i _ => ?_)
  rw [Matrix.transpose_apply, Matrix.mul_apply]
  simp only [Matrix.transpose_apply, errMat, Matrix.sub_apply]
  rw [Finset.mul_sum, Finset.mul_sum, Finset.sum_div]
  exact Finset.sum_congr rfl (fun j _ => by ring)

/-- C5: the spec's closed-form gradients are the true derivatives of the
mean-squared reconstruction loss `loss(forward(params, X), X)`: for every
weight entry, perturbing that entry moves the loss with instantaneous rate
equal to the corresponding entry of `gradDec` (for `W_dec`) or `gradEnc`
(for `W_enc`). -/
theorem gradients_are_true_derivatives {n df dh : ℕ} (p : Params df dh)
    (X : Matrix (Fin n) (Fin df) ℝ) :
    (∀ (a : Fin dh) (b : Fin df),
      HasDerivAt (fun t : ℝ =>
        loss (forward
          ⟨p.W_enc, p.W_dec + t • Matrix.stdBasisMatrix a b (1 : ℝ)⟩ X) X)
        (gradDec p X a b) 0) ∧
    (∀ (a : Fin df) (b : Fin dh),
      HasDerivAt (fun t : ℝ =>
        loss (forward
          ⟨p.W_enc + t • Matrix.stdBasisMatrix a b (1 : ℝ), p.W_dec⟩ X) X)
        (gradEnc p X a b) 0) := by
  constructor
  · intro a b
    have hfun : (fun t : ℝ =>
        loss (forward
          ⟨p.W_enc, p.W_dec + t • Matrix.stdBasisMatrix a b (1 : ℝ)⟩ X) X) =
        (fun t : ℝ => loss (forward p X) X +
          ((∑ ij : Fin n × Fin df,
            2 * (forward p X ij.1 ij.2 - X ij.1 ij.2) *
              (encode p X * Matrix.stdBasisMatrix a b (1 : ℝ)) ij.1 ij.2) /
            (n * df)) * t +
          ((∑ ij : Fin n × Fin df,
            ((encode p X * Matrix.stdBasisMatrix a b (1 : ℝ))
              ij.1 ij.2) ^ 2) / (n * df)) * t ^ 2) := by
      funext t
      rw [forward_dec_dir, loss_add_smul]
    rw [hfun, ← dec_dir_sum p X a b]
    exact hasDerivAt_quadratic _ _ _
  · intro a b
    have hfun : (fun t : ℝ =>
        loss (forward
          ⟨p.W_enc + t • Matrix.stdBasisMatrix a b (1 : ℝ), p.W_dec⟩ X) X) =
        (fun t : ℝ => loss (forward p X) X +
          ((∑ ij : Fin n × Fin df,
            2 * (forward p X ij.1 ij.2 - X ij.1 ij.2) *
              (X * Matrix.stdBasisMatrix a b (1 : ℝ) * p.W_dec)
                ij.1 ij.2) / (n * df)) * t +
          ((∑ ij : Fin n × Fin df,
            ((X * Matrix.stdBasisMatrix a b (1 : ℝ) * p.W_dec)
              ij.1 ij.2) ^ 2) / (n * df)) * t ^ 2) := by
      funext t
      rw [forward_enc_dir, loss_add_smul]
    rw [hfun, ← enc_dir_sum p X a b]
    exact hasDerivAt_quadratic _ _ _

/-- C8: complete characterization of the training loop against the
uninterrupted run.  If some computed loss is non-finite, `train` returns a
`DivergeInfo` error naming the epoch and batch of the FIRST step whose
loss is non-finite — halting there, performing none of the later updates —
and otherwise it returns the fully updated parameters together with the
entire per-batch loss history. -/
theorem train_halts_at_first_divergence {df dh bs : ℕ} (isFin : ℝ → Bool)
    (lr : ℝ) (p : Params df dh) (sched : List (TrainStep bs df)) :
    train isFin lr p sched =
      match (runLosses lr p sched).findIdx? (fun l => !(isFin l)) with
      | none => Except.ok (runParams lr p sched, runLosses lr p sched)
      | some i =>
        Except.error ⟨(sched.getD i ⟨0, 0, 0⟩).epoch,
          (sched.getD i ⟨0, 0, 0⟩).batch⟩ := by
  induction sched generalizing p with
  | nil => rfl
  | cons s rest ih =>
    simp only [train, runLosses]
    by_cases h : isFin (stepLoss p s.data)
    · rw [ih (update lr p s.data)]
      cases h2 : (runLosses lr (update lr p s.data) rest).findIdx?
          (fun l => !(isFin l)) with
      | none =>
        simp [h, List.findIdx?_cons, List.findIdx?_succ, h2, runParams]
      | some i =>
        simp [h, List.findIdx?_cons, List.findIdx?_succ, h2]
    · simp [h, List.findIdx?_cons]
